import Mathlib

/-!
# A verification model of `sublimedsl/keymap.py`

This file gives a shallow embedding, in Lean 4, of the keymap DSL implemented
in `src/sublimedsl/keymap.py`, and proves (or refutes) the specification
claims about it.

Modelling conventions:

* Python objects that are mutated through aliases (the `Context` condition
  objects held by bindings and by a `Keymap`'s `common_context`) live in an
  explicit heap (`Heap`, a list of `Context` records); object references are
  heap indices (`Nat`) and object identity is index equality.  This makes the
  difference between a deep copy (fresh index, equal value) and an alias
  (the same index) observable, exactly as it is in Python.
* Python values that reach the JSON encoder are modelled by `PyVal`, which
  keeps the `list` / `tuple` / `dict` distinction, because
  `KeymapJSONEncoder.default` filters on `isa(list, dict)` and so treats
  tuples differently from lists.
* Raising an exception is modelled with `Except PyErr`.
* `copy.deepcopy` is modelled as a structural copy that allocates a fresh
  heap cell per condition occurrence.  (Python's `deepcopy` additionally
  preserves sharing inside a single input batch via its memo table; none of
  the theorems below depend on an input batch containing the same object
  twice.)
-/

/-- A JSON-serializable scalar, as used for condition operands and command
argument values in the DSL. -/
inductive Scalar where
  | b (x : Bool)
  | s (x : String)
  | i (x : Int)
deriving DecidableEq, Repr

/-- A Python runtime value as seen by the JSON encoder.  `none` is Python's
`None`; `tuple`, `list` and `dict` are kept distinct because the encoder's
emptiness filter only matches `list` and `dict`. -/
inductive PyVal where
  | none
  | bool (b : Bool)
  | int (n : Int)
  | str (s : String)
  | tuple (xs : List PyVal)
  | list (xs : List PyVal)
  | dict (kvs : List (String × PyVal))
deriving Repr

/-- A Python exception kind raised by the modelled code.  The only exception
the source can raise on the modelled paths is `AttributeError`
(`Context.__getattr__`, and `Keymap.__str__`'s failed `jsonify` lookup). -/
inductive PyErr where
  | attributeError
deriving DecidableEq, Repr

/-- The value of a binding's `args` attribute: `Binding.__init__` sets it to
the empty *list* `[]`, and `Binding.to` replaces it with the kwargs dict. -/
inductive ArgsVal where
  | initList
  | dict (kvs : List (String × Scalar))
deriving DecidableEq, Repr

/-- The public attributes of a `Context` condition object
(`Context.__init__`, keymap.py lines 251-261): `key`, `operator`, `operand`
and `match_all`, all but `key` initialized to `None`.  The non-owning
`_parent` back-reference is modelled separately (`ContextObj`) since it is
only observable through the return value of the operator methods. -/
structure Context where
  key : String
  operator : Option String
  operand : Option Scalar
  match_all : Option Bool
deriving DecidableEq, Repr

instance : Inhabited Context := ⟨⟨"", none, none, none⟩⟩

/-- The heap of `Context` condition objects; a reference is an index. -/
abbrev Heap := List Context

/-- A `Binding` object (keymap.py lines 157-166): trigger `keys` (a Python
tuple of strings), `command` (None until `to` is called), `args` (the empty
list until `to` is called), and `context`, a list of references to `Context`
objects in the heap. -/
structure Binding where
  keys : List String
  command : Option String
  args : ArgsVal
  context : List Nat
deriving DecidableEq, Repr

/-- `Binding.__init__(*keys)`: stores the keys and initializes `command` to
`None`, `args` to the empty list and `context` to the empty list.  The body
performs no validation, so construction never raises; the `Except` result
type records that fact. -/
def Binding.init (keys : List String) : Except PyErr Binding :=
  .ok { keys := keys, command := none, args := .initList, context := [] }

/-! ## The JSON encoder (`KeymapJSONEncoder.default`, `isempty`, `sort_dict`)

`KeymapJSONEncoder.default` turns a `Context` or `Binding` object into an
ordered attribute map by the pipeline (keymap.py lines 318-331):
read the attributes in the fixed per-type order, remove `None` values
(`isnone`), remove values that are an empty `list` or `dict`
(`all_fn(isa(list, dict), isempty)`), and sort the keys of any `dict` value
(`walk_values(iffy(isa(dict), sort_dict))`).  We model the resulting
`OrderedDict` as an association list in emission order. -/

/-- `funcy.isnone` restricted to the encoder's value domain. -/
def isnone : PyVal → Bool
  | .none => true
  | _ => false

/-- `isa(list, dict)`: true exactly for Python `list` and `dict` values.
Note that a tuple is *not* matched. -/
def isListOrDict : PyVal → Bool
  | .list _ => true
  | .dict _ => true
  | _ => false

/-- `isempty(obj)` (keymap.py lines 334-335): `len(obj) == 0`, modelled on
the sized values; it is only ever applied under the `isa(list, dict)`
guard. -/
def isempty : PyVal → Bool
  | .list xs => xs.isEmpty
  | .dict kvs => kvs.isEmpty
  | .tuple xs => xs.isEmpty
  | .str s => s.isEmpty
  | _ => false

/-- `sort_dict` (keymap.py lines 342-343): sort an association list by key
(Python `sorted` keyed on the first tuple component). -/
def sortPairs (kvs : List (String × PyVal)) : List (String × PyVal) :=
  kvs.mergeSort (fun a b => a.1 ≤ b.1)

/-- `iffy(isa(dict), sort_dict)`: sort the keys of a dict value, leave every
other value unchanged. -/
def sortIfDict : PyVal → PyVal
  | .dict kvs => .dict (sortPairs kvs)
  | v => v

/-- The encoder pipeline applied to an attribute list that is already in the
fixed per-type order: drop `None` values, drop empty list/dict values, then
sort dict values. -/
def ordAttrs (attrs : List (String × PyVal)) : List (String × PyVal) :=
  (((attrs.filter (fun kv => !(isnone kv.2))).filter
      (fun kv => !(isListOrDict kv.2 && isempty kv.2))).map
    (fun kv => (kv.1, sortIfDict kv.2)))

/-- Conversion of the optional attributes to the Python values the encoder
reads: `None` stays `None`. -/
def Scalar.toPy : Scalar → PyVal
  | .b x => .bool x
  | .s x => .str x
  | .i x => .int x

def optStrPy : Option String → PyVal
  | none => .none
  | some s => .str s

def optScalarPy : Option Scalar → PyVal
  | none => .none
  | some v => v.toPy

def optBoolPy : Option Bool → PyVal
  | none => .none
  | some b => .bool b

/-- The `args` attribute as the encoder sees it: the empty list from
`__init__`, or the kwargs dict set by `to`. -/
def ArgsVal.toPy : ArgsVal → PyVal
  | .initList => .list []
  | .dict kvs => .dict (kvs.map (fun p => (p.1, p.2.toPy)))

/-- The attribute list of a `Context` in the encoder's fixed order
`['key', 'operator', 'operand', 'match_all']` (keymap.py line 327),
before filtering. -/
def Context.rawAttrs (c : Context) : List (String × PyVal) :=
  [("key", .str c.key),
   ("operator", optStrPy c.operator),
   ("operand", optScalarPy c.operand),
   ("match_all", optBoolPy c.match_all)]

/-- `KeymapJSONEncoder.default` on a `Context`: the ordered, filtered
attribute map that is emitted as the JSON object. -/
def Context.toPy (c : Context) : List (String × PyVal) :=
  ordAttrs c.rawAttrs

/-- The attribute list of a `Binding` in the encoder's fixed order
`['keys', 'command', 'args', 'context']` (keymap.py line 329), before
filtering.  `keys` is a Python tuple; `context` is a list whose elements are
`Context` objects (emitted, in turn, through the encoder). -/
def Binding.rawAttrs (h : Heap) (b : Binding) : List (String × PyVal) :=
  [("keys", .tuple (b.keys.map .str)),
   ("command", optStrPy b.command),
   ("args", b.args.toPy),
   ("context", .list (b.context.map
      (fun r => .dict (Context.toPy (h.getD r default)))))]

/-- `KeymapJSONEncoder.default` on a `Binding`: the ordered, filtered
attribute map that is emitted as the JSON object. -/
def Binding.toPy (h : Heap) (b : Binding) : List (String × PyVal) :=
  ordAttrs (b.rawAttrs h)

/-! ## The condition object with its back-reference (`Context` methods)

`Context.__init__(key, parent)` stores a non-owning back-reference to the
owning `Binding` in `_parent`; the operator methods return
`self._parent or self` (keymap.py line 302).  Operator method lookup goes
through `Context.__getattr__` (lines 304-307): a name contained in
`Context._OPERATORS` resolves to `partial(self._operator, name)`, anything
else raises `AttributeError`. -/

/-- A `Context` object together with its `_parent` back-reference. -/
structure ContextObj where
  val : Context
  parent : Option Binding
deriving DecidableEq, Repr

/-- `Context._OPERATORS` (keymap.py lines 246-249). -/
def Context.OPERATORS : List String :=
  ["equal", "not_equal", "regex_match", "not_regex_match",
   "regex_contains", "not_regex_contains"]

/-- What an operator method call returns: `self._parent or self`. -/
inductive OpResult where
  | toParent (b : Binding)
  | toSelf (c : ContextObj)
deriving DecidableEq, Repr

/-- `Context._operator(operator, operand)` (keymap.py lines 299-302): set
both attributes, then return the parent if one is set, else the (mutated)
condition itself. -/
def Context.setOperator (c : ContextObj) (name : String) (v : Scalar) :
    ContextObj × OpResult :=
  let c' : ContextObj :=
    { c with val := { c.val with operator := some name, operand := some v } }
  (c', match c'.parent with
       | some b => .toParent b
       | none => .toSelf c')

/-- `Context.__getattr__(name)` for a dynamically dispatched comparison
(keymap.py lines 304-307): a name in `_OPERATORS` yields the bound
comparison setter, any other name raises `AttributeError`.  (Names that are
real attributes of the class, such as `all` or `key`, are resolved by normal
lookup and never reach `__getattr__`.) -/
def Context.getattrOperator (c : ContextObj) (name : String) :
    Except PyErr (Scalar → ContextObj × OpResult) :=
  if name ∈ Context.OPERATORS then
    .ok (fun v => Context.setOperator c name v)
  else
    .error .attributeError

/-- `getattr(ctx, name)(operand)`: look the comparison up dynamically, then
invoke it. -/
def Context.compare (c : ContextObj) (name : String) (v : Scalar) :
    Except PyErr (ContextObj × OpResult) :=
  (Context.getattrOperator c name).map (fun f => f v)

/-- Python's `==` on two `Context` objects.  The class defines no `__eq__`,
so comparison falls back to `object.__eq__`, which is object identity; with
objects modelled as heap references this is reference equality. -/
def Context.pyEq (a b : Nat) : Bool :=
  a == b

/-! ## The `Keymap` container and its preprocessing pipeline

`Keymap._preprocess` (keymap.py lines 116-122) is
`pipe(deepcopy, lflatten(follow=isa(list, tuple, Keymap)),
self._apply_common_context, self._apply_default_match_all)`.

The input of `_preprocess` is an arbitrarily nested structure of bindings in
lists, tuples and sub-`Keymap`s, modelled by `BTree`.  A nested `Keymap`
contributes its already-preprocessed stored bindings (iterating a `Keymap`
yields `self._bindings`, lines 135-136).  Deep copy runs first, on the
nested structure; flattening follows. -/

/-- One element of the input to `Keymap.__init__` / `Keymap.extend`:
a binding, a (nested) list or tuple, or a sub-`Keymap` (represented by its
stored bindings, which is all that deep copy plus iteration exposes of
it). -/
inductive BTree where
  | bind (b : Binding)
  | list (xs : List BTree)
  | tuple (xs : List BTree)
  | keymap (bs : List Binding)
deriving Repr

mutual

/-- `lflatten(..., follow=isa(list, tuple, Keymap))` on one element:
lists, tuples and keymaps are followed, a binding is an atom. -/
def flattenTree : BTree → List Binding
  | .bind b => [b]
  | .list xs => flattenTrees xs
  | .tuple xs => flattenTrees xs
  | .keymap bs => bs

/-- `lflatten` on a sequence of elements, left to right. -/
def flattenTrees : List BTree → List Binding
  | [] => []
  | t :: ts => flattenTree t ++ flattenTrees ts

end

/-- Deep copy of a list of condition references: each referenced `Context`
value is copied into a fresh heap cell, in order; returns the new heap and
the fresh references. -/
def copyCtxs (h : Heap) : List Nat → Heap × List Nat
  | [] => (h, [])
  | r :: rs =>
    let res := copyCtxs (h ++ [h.getD r default]) rs
    (res.1, h.length :: res.2)

/-- Deep copy of one `Binding`: the immutable attributes are copied by
value, the `context` list is repopulated with fresh copies of the referenced
condition objects. -/
def copyBinding (h : Heap) (b : Binding) : Heap × Binding :=
  let res := copyCtxs h b.context
  (res.1, { b with context := res.2 })

/-- Deep copy of a list of bindings, left to right. -/
def copyBindings (h : Heap) : List Binding → Heap × List Binding
  | [] => (h, [])
  | b :: bs =>
    let rb := copyBinding h b
    let res := copyBindings rb.1 bs
    (res.1, rb.2 :: res.2)

mutual

/-- `deepcopy` on one input element. -/
def copyTree (h : Heap) : BTree → Heap × BTree
  | .bind b =>
    let res := copyBinding h b
    (res.1, .bind res.2)
  | .list xs =>
    let res := copyTrees h xs
    (res.1, .list res.2)
  | .tuple xs =>
    let res := copyTrees h xs
    (res.1, .tuple res.2)
  | .keymap bs =>
    let res := copyBindings h bs
    (res.1, .keymap res.2)

/-- `deepcopy` on the input sequence, left to right. -/
def copyTrees (h : Heap) : List BTree → Heap × List BTree
  | [] => (h, [])
  | t :: ts =>
    let rt := copyTree h t
    let res := copyTrees rt.1 ts
    (res.1, rt.2 :: res.2)

end

/-- `Keymap._apply_common_context` (keymap.py lines 124-127):
`binding.context.extend(self._common_context)` for every binding in the
batch — the very references held in `_common_context` are appended, no
copies are made.  After the deep-copy stage the batch elements are distinct
objects, so the loop is a map. -/
def applyCommonContext (common : List Nat) (bs : List Binding) :
    List Binding :=
  bs.map (fun b => { b with context := b.context ++ common })

/-- `flatten(pluck_attr('context', bindings))`: all condition references of
the batch, in binding order and, within one binding, context order. -/
def ctxRefs (bs : List Binding) : List Nat :=
  (bs.map Binding.context).flatten

/-- The effect of one loop iteration of `_apply_default_match_all` on the
condition a reference points to: `if context.match_all is None:
context.match_all = default`. -/
def setIfNone (d : Option Bool) (c : Context) : Context :=
  if c.match_all = none then { c with match_all := d } else c

/-- One loop iteration of `_apply_default_match_all`: mutate the referenced
condition in place when its `match_all` is `None`. -/
def setIfNoneAt (d : Option Bool) (h : Heap) (r : Nat) : Heap :=
  match h[r]? with
  | some c =>
    if c.match_all = none then h.set r { c with match_all := d } else h
  | none => h

/-- `Keymap._apply_default_match_all` (keymap.py lines 129-133): for every
condition reachable from the batch, set an unset `match_all` to the
container's default. -/
def applyDefaultMatchAll (d : Option Bool) (h : Heap) (bs : List Binding) :
    Heap :=
  (ctxRefs bs).foldl (setIfNoneAt d) h

/-- The `Keymap` container state: the two configuration attributes
(`_default_match_all`, `_common_context`) and the stored bindings. -/
structure KeymapObj where
  default_match_all : Option Bool
  common_context : List Nat
  bindings : List Binding
deriving Repr

/-- `Keymap._preprocess(bindings)` (keymap.py lines 116-122): deep copy,
flatten, inject the common context, propagate the default match scope;
returns the updated heap and the preprocessed batch. -/
def Keymap.preprocess (h : Heap) (km : KeymapObj) (ts : List BTree) :
    Heap × List Binding :=
  let rc := copyTrees h ts
  let bs := applyCommonContext km.common_context (flattenTrees rc.2)
  (applyDefaultMatchAll km.default_match_all rc.1 bs, bs)

/-- `Keymap.__init__(*bindings, default_match_all, common_context)`
(keymap.py lines 74-85): store the two configuration values and the
preprocessed initial bindings. -/
def Keymap.init (h : Heap) (ts : List BTree) (default_match_all : Option Bool)
    (common_context : List Nat) : Heap × KeymapObj :=
  let km0 : KeymapObj :=
    { default_match_all := default_match_all,
      common_context := common_context, bindings := [] }
  let res := Keymap.preprocess h km0 ts
  (res.1, { km0 with bindings := res.2 })

/-- `Keymap.extend(*bindings)` (keymap.py lines 108-114): append the
preprocessed batch to the stored bindings.  The method body has no `return`
statement, so the Python call evaluates to `None`; the second component is
that return value. -/
def Keymap.extend (h : Heap) (km : KeymapObj) (ts : List BTree) :
    (Heap × KeymapObj) × Option KeymapObj :=
  let res := Keymap.preprocess h km ts
  ((res.1, { km with bindings := km.bindings ++ res.2 }), none)

/-- `Keymap.__len__` (keymap.py lines 141-142). -/
def Keymap.len (km : KeymapObj) : Nat :=
  km.bindings.length

/-- The view of a stored binding with its condition references dereferenced,
used to compare preprocessing results by value. -/
def derefBinding (h : Heap) (b : Binding) :
    List String × Option String × ArgsVal × List Context :=
  (b.keys, b.command, b.args, b.context.map (fun r => h.getD r default))

/-! ## `Keymap.__str__` (keymap.py lines 144-145)

`__str__` evaluates `self.jsonify()`.  The `Keymap` class defines no
`jsonify` attribute and no `__getattr__`, and the instance carries only the
three attributes set in `__init__`, so the lookup raises `AttributeError`
before anything is serialized (the module-level function `jsonify` is not
reachable through `self`). -/

/-- The attributes findable on a `Keymap` instance: the class body's methods
and the instance attributes set in `__init__`. -/
def Keymap.attrNames : List String :=
  ["__init__", "to_json", "dump", "extend",
   "_preprocess", "_apply_common_context", "_apply_default_match_all",
   "__iter__", "__lshift__", "__len__", "__str__",
   "_default_match_all", "_common_context", "_bindings"]

/-- Attribute lookup on a `Keymap` instance (the class has no
`__getattr__` fallback). -/
def Keymap.hasAttr (name : String) : Bool :=
  Keymap.attrNames.contains name

/-- `Keymap.__str__`: look up `self.jsonify` and call it.  The lookup fails,
so the call raises `AttributeError`; no string is ever produced. -/
def Keymap.strMethod (km : KeymapObj) : Except PyErr String :=
  if Keymap.hasAttr "jsonify" then
    .ok (toString (Keymap.len km))
  else
    .error .attributeError

/-! ## Helper lemmas about the encoder -/

theorem isnone_scalarToPy (v : Scalar) : isnone v.toPy = false := by
  cases v <;> rfl

theorem isListOrDict_scalarToPy (v : Scalar) : isListOrDict v.toPy = false := by
  cases v <;> rfl

/-! ## Claims about construction and serialization -/

/-- C5 counterexample: constructing a `Binding` with *zero* key-combo
strings does not fail — `Binding.__init__` performs no validation and there
is no `InvalidBinding` error anywhere in the source — it succeeds and stores
an empty keys tuple. -/
theorem binding_init_zero_keys_succeeds :
    Binding.init [] =
      .ok { keys := [], command := none, args := .initList, context := [] } :=
  rfl

/-- C5 (amended): constructing a `Binding` with any number of key-combo
strings (including zero) succeeds, yielding a binding with exactly the given
keys, no command, the empty args list and no conditions. -/
theorem binding_init_total (ks : List String) :
    ∃ b, Binding.init ks = .ok b ∧ b.keys = ks ∧ b.command = none ∧
      b.args = .initList ∧ b.context = [] :=
  ⟨{ keys := ks, command := none, args := .initList, context := [] },
   rfl, rfl, rfl, rfl, rfl⟩

/-- C6: a dynamically dispatched comparison call on a condition raises
`AttributeError` exactly when the operator name is outside
`{equal, not_equal, regex_match, not_regex_match, regex_contains,
not_regex_contains}`; for a name inside the set it sets both `operator` and
`operand` (leaving `key` and `match_all` untouched) and returns the owning
binding when the `_parent` back-reference is present, else the condition
itself. -/
theorem context_compare_spec (c : ContextObj) (name : String) (v : Scalar) :
    Context.compare c name v =
      if name ∈ Context.OPERATORS then
        .ok (⟨⟨c.val.key, some name, some v, c.val.match_all⟩, c.parent⟩,
             match c.parent with
             | some b => .toParent b
             | none =>
               .toSelf ⟨⟨c.val.key, some name, some v, c.val.match_all⟩,
                        c.parent⟩)
      else
        .error .attributeError := by
  obtain ⟨⟨k, op, od, ma⟩, p⟩ := c
  by_cases hn : name ∈ Context.OPERATORS <;>
    cases p <;>
      simp [Context.compare, Context.getattrOperator, Context.setOperator,
            Except.map, hn]

/-- C8 (divergence exhibit): Python compares `Context` objects by identity —
the class defines no `__eq__` — so two distinct condition objects (here heap
references 0 and 1) with all four public attributes equal still compare
unequal, contradicting the spec and the repository's own equality tests. -/
theorem context_eq_is_identity_divergence :
    Context.pyEq 0 1 = false ∧
    (([⟨"foo", none, none, none⟩, ⟨"foo", none, none, none⟩] : Heap).getD 0
        default =
      ([⟨"foo", none, none, none⟩, ⟨"foo", none, none, none⟩] : Heap).getD 1
        default) :=
  ⟨rfl, rfl⟩

/-- C9: `Keymap.__str__` calls `self.jsonify()`, but no `jsonify` attribute
exists on a `Keymap` instance or its class, so the conversion always raises
`AttributeError` and never returns serialized JSON. -/
theorem keymap_str_raises_attributeError (km : KeymapObj) :
    Keymap.strMethod km = .error .attributeError := by
  simp [Keymap.strMethod, Keymap.hasAttr, Keymap.attrNames]

/-- C3 counterexample: a binding constructed with zero keys (which the code
permits) serializes with its `keys` attribute present even though its value
is an empty sequence — the encoder's emptiness filter matches only `list`
and `dict`, and `keys` is a tuple.  So "every attribute holding an empty
sequence is omitted entirely" is false as stated. -/
theorem empty_keys_tuple_is_emitted :
    Binding.toPy [] { keys := [], command := none, args := .initList,
                      context := [] } =
      [("keys", PyVal.tuple [])] ∧
    isempty (PyVal.tuple []) = true :=
  ⟨rfl, rfl⟩

/-- C3 (amended): serialization of a condition or binding omits every
attribute whose value is `None` and every attribute holding an empty *list*
or empty *dict* (for a condition: an unset `operator`, `operand` or
`match_all`; for a binding: an unset `command`, the initial empty args list,
an empty kwargs dict, an empty context list), and emits all other attributes
in the fixed per-type order — `key, operator, operand, match_all` for a
condition and `keys, command, args, context` for a binding.  The `keys`
attribute, being a tuple, is always emitted, even when empty. -/
theorem encoder_omission_and_order (c : Context) (h : Heap) (b : Binding) :
    (Context.toPy c).map Prod.fst =
      ["key"]
        ++ (match c.operator with | none => [] | some _ => ["operator"])
        ++ (match c.operand with | none => [] | some _ => ["operand"])
        ++ (match c.match_all with | none => [] | some _ => ["match_all"]) ∧
    (Binding.toPy h b).map Prod.fst =
      ["keys"]
        ++ (match b.command with | none => [] | some _ => ["command"])
        ++ (match b.args with
            | .initList => []
            | .dict [] => []
            | .dict (_ :: _) => ["args"])
        ++ (match b.context with | [] => [] | _ :: _ => ["context"]) := by
  constructor
  · obtain ⟨k, op, od, ma⟩ := c
    cases op <;> rcases od with _ | v <;> cases ma <;> try cases v
    all_goals
      simp [Context.toPy, Context.rawAttrs, ordAttrs, optStrPy, optScalarPy,
            optBoolPy, Scalar.toPy, isnone, isListOrDict, isempty]
  · obtain ⟨ks, cmd, args, ctx⟩ := b
    cases cmd <;> rcases args with _ | ⟨_ | ⟨p, ps⟩⟩ <;> cases ctx <;>
      simp [Binding.toPy, Binding.rawAttrs, ordAttrs, ArgsVal.toPy, optStrPy,
            isnone, isListOrDict, isempty]

/-- C10: a binding constructed with one or more keys, on which `to` was
never called and to which no condition was added, serializes to a JSON
object containing only the `keys` attribute: `command` is `None`, `args` is
the initial empty list, `context` is empty, and all three are omitted. -/
theorem fresh_binding_serializes_keys_only (h : Heap) (ks : List String)
    (b : Binding) (hk : ks ≠ []) (hb : Binding.init ks = .ok b) :
    Binding.toPy h b = [("keys", PyVal.tuple (ks.map PyVal.str))] := by
  simp only [Binding.init, Except.ok.injEq] at hb
  subst hb
  simp [Binding.toPy, Binding.rawAttrs, ordAttrs, ArgsVal.toPy, optStrPy,
        isnone, isListOrDict, isempty, sortIfDict]

/-- C10 witness: the theorem applied to the binding `bind('x')`. -/
theorem fresh_binding_serializes_keys_only_witness :
    Binding.toPy [] { keys := ["x"], command := none, args := .initList,
                      context := [] } =
      [("keys", PyVal.tuple [PyVal.str "x"])] :=
  fresh_binding_serializes_keys_only [] ["x"] _ (by decide) rfl

/-! ## Lemmas about the default match-scope propagation -/

theorem setIfNone_idem (d : Option Bool) (c : Context) :
    setIfNone d (setIfNone d c) = setIfNone d c := by
  obtain ⟨k, op, od, ma⟩ := c
  cases ma <;> cases d <;> simp [setIfNone]

theorem setIfNone_none_eq (c : Context) : setIfNone none c = c := by
  obtain ⟨k, op, od, ma⟩ := c
  cases ma <;> simp [setIfNone]

theorem length_setIfNoneAt (d : Option Bool) (h : Heap) (r : Nat) :
    (setIfNoneAt d h r).length = h.length := by
  unfold setIfNoneAt
  cases h[r]? with
  | none => rfl
  | some c =>
    dsimp only
    split
    · exact List.length_set ..
    · rfl

theorem getD_setIfNoneAt_ne (d : Option Bool) (h : Heap) (r s : Nat)
    (hne : r ≠ s) :
    (setIfNoneAt d h r).getD s default = h.getD s default := by
  unfold setIfNoneAt
  cases h[r]? with
  | none => rfl
  | some c =>
    dsimp only
    split
    · simp [List.getD_eq_getElem?_getD, List.getElem?_set_ne hne]
    · rfl

theorem getD_setIfNoneAt_self (d : Option Bool) (h : Heap) (r : Nat)
    (hr : r < h.length) :
    (setIfNoneAt d h r).getD r default = setIfNone d (h.getD r default) := by
  unfold setIfNoneAt
  rw [List.getElem?_eq_getElem hr]
  dsimp only
  unfold setIfNone
  simp only [List.getD_eq_getElem?_getD, List.getElem?_eq_getElem hr,
             Option.getD_some]
  split
  · simp [List.getElem?_set_self (by simpa using hr)]
  · simp [List.getElem?_eq_getElem hr]

theorem foldl_setIfNoneAt_length (d : Option Bool) :
    ∀ (rs : List Nat) (h : Heap),
      (rs.foldl (setIfNoneAt d) h).length = h.length := by
  intro rs
  induction rs with
  | nil => intro h; rfl
  | cons r rs ih =>
    intro h
    rw [List.foldl_cons, ih, length_setIfNoneAt]

theorem foldl_setIfNoneAt_getD_notMem (d : Option Bool) :
    ∀ (rs : List Nat) (h : Heap) (s : Nat), s ∉ rs →
      (rs.foldl (setIfNoneAt d) h).getD s default = h.getD s default := by
  intro rs
  induction rs with
  | nil => intro h s _; rfl
  | cons r rs ih =>
    intro h s hs
    rw [List.foldl_cons, ih _ s (fun hm => hs (List.mem_cons_of_mem r hm)),
        getD_setIfNoneAt_ne d h r s
          (fun he => hs (List.mem_cons.2 (Or.inl he.symm)))]

theorem foldl_setIfNoneAt_getD_mem (d : Option Bool) :
    ∀ (rs : List Nat) (h : Heap) (s : Nat), s ∈ rs → s < h.length →
      (rs.foldl (setIfNoneAt d) h).getD s default =
        setIfNone d (h.getD s default) := by
  intro rs
  induction rs with
  | nil => intro h s hs _; cases hs
  | cons r rs ih =>
    intro h s hs hlt
    rw [List.foldl_cons]
    by_cases hsr : s = r
    · subst hsr
      by_cases hmem : s ∈ rs
      · rw [ih _ s hmem (by rw [length_setIfNoneAt]; exact hlt),
            getD_setIfNoneAt_self d h s hlt, setIfNone_idem]
      · rw [foldl_setIfNoneAt_getD_notMem d rs _ s hmem,
            getD_setIfNoneAt_self d h s hlt]
    · have hmem : s ∈ rs := by
        rcases List.mem_cons.1 hs with h' | h'
        · exact absurd h' hsr
        · exact h'
      rw [ih _ s hmem (by rw [length_setIfNoneAt]; exact hlt),
          getD_setIfNoneAt_ne d h r s (fun h' => hsr h'.symm)]

/-- The heap after default propagation, at any reference reachable from the
batch: an unset `match_all` becomes the default, a set one is kept. -/
theorem applyDefaultMatchAll_getD_mem (d : Option Bool) (h : Heap)
    (bs : List Binding) (r : Nat) (hmem : r ∈ ctxRefs bs)
    (hr : r < h.length) :
    (applyDefaultMatchAll d h bs).getD r default =
      setIfNone d (h.getD r default) :=
  foldl_setIfNoneAt_getD_mem d (ctxRefs bs) h r hmem hr

/-- Default propagation touches nothing outside the batch. -/
theorem applyDefaultMatchAll_getD_notMem (d : Option Bool) (h : Heap)
    (bs : List Binding) (r : Nat) (hmem : r ∉ ctxRefs bs) :
    (applyDefaultMatchAll d h bs).getD r default = h.getD r default :=
  foldl_setIfNoneAt_getD_notMem d (ctxRefs bs) h r hmem

/-- With the default unset, propagation changes no condition's value. -/
theorem applyDefaultMatchAll_none_getD (h : Heap) (bs : List Binding)
    (r : Nat) (hr : r < h.length) :
    (applyDefaultMatchAll none h bs).getD r default = h.getD r default := by
  by_cases hmem : r ∈ ctxRefs bs
  · rw [applyDefaultMatchAll_getD_mem none h bs r hmem hr, setIfNone_none_eq]
  · exact applyDefaultMatchAll_getD_notMem none h bs r hmem

/-- C2: for a container with a *configured* default match scope, every
condition reachable from the preprocessed batch whose `match_all` is unset
(`None`) gets the configured default, and every condition whose `match_all`
was already set keeps its value (`Keymap._apply_default_match_all`). -/
theorem default_match_scope_propagation (h : Heap) (bs : List Binding)
    (v : Bool) (r : Nat) (hmem : r ∈ ctxRefs bs) (hr : r < h.length) :
    ((applyDefaultMatchAll (some v) h bs).getD r default).match_all =
      some (((h.getD r default).match_all).getD v) := by
  rw [applyDefaultMatchAll_getD_mem (some v) h bs r hmem hr]
  unfold setIfNone
  split
  · simp_all
  · rename_i hma
    cases hmc : (h.getD r default).match_all with
    | none => exact absurd hmc hma
    | some b => simp [hmc]

/-- C2 witness: a batch holding one condition with unset scope (reference 0,
which becomes `True`) and one with scope already `False` (reference 1, which
is kept). -/
theorem default_match_scope_propagation_witness :
    ((applyDefaultMatchAll (some true)
        [⟨"k", none, none, none⟩, ⟨"j", none, none, some false⟩]
        [⟨["x"], none, .initList, [0, 1]⟩]).getD 0 default).match_all =
      some true ∧
    ((applyDefaultMatchAll (some true)
        [⟨"k", none, none, none⟩, ⟨"j", none, none, some false⟩]
        [⟨["x"], none, .initList, [0, 1]⟩]).getD 1 default).match_all =
      some false :=
  ⟨default_match_scope_propagation _ _ true 0 (by decide) (by decide),
   default_match_scope_propagation _ _ true 1 (by decide) (by decide)⟩

/-! ## Lemmas about the deep-copy stage -/

theorem copyCtxs_spec :
    ∀ (rs : List Nat) (h : Heap), (∀ r ∈ rs, r < h.length) →
      (∃ t, (copyCtxs h rs).1 = h ++ t) ∧
      (copyCtxs h rs).2.length = rs.length ∧
      (∀ n ∈ (copyCtxs h rs).2,
        h.length ≤ n ∧ n < (copyCtxs h rs).1.length) ∧
      ((copyCtxs h rs).2).map (fun n => (copyCtxs h rs).1.getD n default) =
        rs.map (fun r => h.getD r default) := by
  intro rs
  induction rs with
  | nil =>
    intro h _
    exact ⟨⟨[], by simp [copyCtxs]⟩, rfl, by simp [copyCtxs], rfl⟩
  | cons r rs ih =>
    intro h hv
    have hr : r < h.length := hv r (List.mem_cons_self r rs)
    have hv' : ∀ r' ∈ rs, r' < (h ++ [h.getD r default]).length :=
      fun r' hm =>
        lt_of_lt_of_le (hv r' (List.mem_cons_of_mem r hm))
          (by simp [List.length_append])
    obtain ⟨⟨t, ht⟩, hlen, hfresh, hmap⟩ := ih (h ++ [h.getD r default]) hv'
    have e1 : (copyCtxs h (r :: rs)).1 =
        (copyCtxs (h ++ [h.getD r default]) rs).1 := rfl
    have e2 : (copyCtxs h (r :: rs)).2 =
        h.length :: (copyCtxs (h ++ [h.getD r default]) rs).2 := rfl
    have hht : (copyCtxs h (r :: rs)).1 = h ++ ([h.getD r default] ++ t) := by
      rw [e1, ht, List.append_assoc]
    refine ⟨⟨[h.getD r default] ++ t, hht⟩, ?_, ?_, ?_⟩
    · rw [e2]
      simp only [List.length_cons, hlen]
    · rw [e2]
      intro n hn
      rcases List.mem_cons.1 hn with rfl | hn'
      · refine ⟨le_refl _, ?_⟩
        rw [hht]
        simp only [List.length_append, List.length_cons, List.length_nil]
        omega
      · have hf := hfresh n hn'
        refine ⟨le_trans ?_ hf.1, ?_⟩
        · simp only [List.length_append, List.length_cons, List.length_nil]
          omega
        · rw [e1]; exact hf.2
    · rw [e2, e1, List.map_cons]
      have hhead :
          (copyCtxs (h ++ [h.getD r default]) rs).1.getD h.length default =
            h.getD r default := by
        rw [ht, List.append_assoc,
            List.getD_append_right h ([h.getD r default] ++ t) default
              h.length (le_refl _)]
        simp
      rw [hhead, hmap]
      have htail : rs.map (fun r' => (h ++ [h.getD r default]).getD r' default)
          = rs.map (fun r' => h.getD r' default) :=
        List.map_congr_left
          (fun r' hm =>
            List.getD_append h [h.getD r default] default r'
              (hv r' (List.mem_cons_of_mem r hm)))
      rw [htail, List.map_cons]

theorem copyBinding_spec (h : Heap) (b : Binding)
    (hv : ∀ r ∈ b.context, r < h.length) :
    (∃ t, (copyBinding h b).1 = h ++ t) ∧
    (copyBinding h b).2.keys = b.keys ∧
    (copyBinding h b).2.command = b.command ∧
    (copyBinding h b).2.args = b.args ∧
    (∀ n ∈ (copyBinding h b).2.context,
      h.length ≤ n ∧ n < (copyBinding h b).1.length) ∧
    ((copyBinding h b).2.context).map
        (fun n => (copyBinding h b).1.getD n default) =
      b.context.map (fun r => h.getD r default) := by
  obtain ⟨hext, _, hfresh, hmap⟩ := copyCtxs_spec b.context h hv
  exact ⟨hext, rfl, rfl, rfl, hfresh, hmap⟩

theorem copyBindings_length :
    ∀ (bs : List Binding) (h : Heap),
      (copyBindings h bs).2.length = bs.length := by
  intro bs
  induction bs with
  | nil => intro h; rfl
  | cons b bs ih => intro h; simp [copyBindings, ih]

theorem copyBindings_append :
    ∀ (as bs : List Binding) (h : Heap),
      (copyBindings h (as ++ bs)).1 =
        (copyBindings (copyBindings h as).1 bs).1 ∧
      (copyBindings h (as ++ bs)).2 =
        (copyBindings h as).2 ++ (copyBindings (copyBindings h as).1 bs).2 := by
  intro as
  induction as with
  | nil => intro bs h; exact ⟨rfl, rfl⟩
  | cons a as ih =>
    intro bs h
    have e1 : (copyBindings h ((a :: as) ++ bs)).1 =
        (copyBindings (copyBinding h a).1 (as ++ bs)).1 := rfl
    have e2 : (copyBindings h ((a :: as) ++ bs)).2 =
        (copyBinding h a).2 :: (copyBindings (copyBinding h a).1 (as ++ bs)).2 :=
      rfl
    obtain ⟨ih1, ih2⟩ := ih bs (copyBinding h a).1
    constructor
    · rw [e1, ih1]; rfl
    · rw [e2, ih2]; rfl

theorem copyBindings_spec :
    ∀ (bs : List Binding) (h : Heap),
      (∀ b ∈ bs, ∀ r ∈ b.context, r < h.length) →
      (∃ t, (copyBindings h bs).1 = h ++ t) ∧
      (copyBindings h bs).2.map Binding.keys = bs.map Binding.keys ∧
      (copyBindings h bs).2.map Binding.command = bs.map Binding.command ∧
      (copyBindings h bs).2.map Binding.args = bs.map Binding.args ∧
      (∀ b' ∈ (copyBindings h bs).2, ∀ n ∈ b'.context,
        h.length ≤ n ∧ n < (copyBindings h bs).1.length) ∧
      (copyBindings h bs).2.map
          (fun b' => b'.context.map
            (fun n => (copyBindings h bs).1.getD n default)) =
        bs.map (fun b => b.context.map (fun r => h.getD r default)) := by
  intro bs
  induction bs with
  | nil =>
    intro h _
    exact ⟨⟨[], by simp [copyBindings]⟩, rfl, rfl, rfl, by simp [copyBindings],
           rfl⟩
  | cons b bs ih =>
    intro h hv
    have hvb : ∀ r ∈ b.context, r < h.length :=
      hv b (List.mem_cons_self b bs)
    obtain ⟨⟨t0, ht0⟩, hk0, hc0, ha0, hfresh0, hmap0⟩ := copyBinding_spec h b hvb
    have hle0 : h.length ≤ (copyBinding h b).1.length := by
      rw [ht0]; simp [List.length_append]
    have hv' : ∀ b' ∈ bs, ∀ r ∈ b'.context, r < (copyBinding h b).1.length :=
      fun b' hm r hr =>
        lt_of_lt_of_le (hv b' (List.mem_cons_of_mem b hm) r hr) hle0
    obtain ⟨⟨t1, ht1⟩, hk1, hc1, ha1, hfresh1, hmap1⟩ :=
      ih (copyBinding h b).1 hv'
    have e1 : (copyBindings h (b :: bs)).1 =
        (copyBindings (copyBinding h b).1 bs).1 := rfl
    have e2 : (copyBindings h (b :: bs)).2 =
        (copyBinding h b).2 :: (copyBindings (copyBinding h b).1 bs).2 := rfl
    have hle1 : (copyBinding h b).1.length ≤
        (copyBindings (copyBinding h b).1 bs).1.length := by
      rw [ht1]; simp [List.length_append]
    refine ⟨⟨t0 ++ t1, ?_⟩, ?_, ?_, ?_, ?_, ?_⟩
    · rw [e1, ht1, ht0, List.append_assoc]
    · rw [e2, List.map_cons, List.map_cons, hk0, hk1]
    · rw [e2, List.map_cons, List.map_cons, hc0, hc1]
    · rw [e2, List.map_cons, List.map_cons, ha0, ha1]
    · rw [e2]
      intro b' hb' n hn
      rcases List.mem_cons.1 hb' with rfl | hb''
      · have hf := hfresh0 n hn
        exact ⟨hf.1, lt_of_lt_of_le hf.2 (by rw [e1]; exact hle1)⟩
      · have hf := hfresh1 b' hb'' n hn
        exact ⟨le_trans hle0 hf.1, by rw [e1]; exact hf.2⟩
    · rw [e2, e1, List.map_cons]
      have hhead : ((copyBinding h b).2.context).map
          (fun n => (copyBindings (copyBinding h b).1 bs).1.getD n default) =
            b.context.map (fun r => h.getD r default) := by
        rw [← hmap0]
        exact List.map_congr_left
          (fun n hn => by
            rw [ht1]
            exact List.getD_append (copyBinding h b).1 t1 default n
              (hfresh0 n hn).2)
      have htail : bs.map
          (fun b' => b'.context.map
            (fun r => (copyBinding h b).1.getD r default)) =
            bs.map (fun b' => b'.context.map (fun r => h.getD r default)) :=
        List.map_congr_left
          (fun b' hm =>
            List.map_congr_left
              (fun r hr => by
                rw [ht0]
                exact List.getD_append h t0 default r
                  (hv b' (List.mem_cons_of_mem b hm) r hr)))
      rw [hhead, hmap1, htail, List.map_cons]

/-! ## Deep copy commutes with flattening

`_preprocess` deep-copies the nested input structure first and flattens
afterwards; both walk the input left to right, so the result is the same as
flattening first and copying the flat batch. -/

theorem flattenTrees_map_bind (bs : List Binding) :
    flattenTrees (bs.map BTree.bind) = bs := by
  induction bs with
  | nil => rfl
  | cons b bs ih => simp [flattenTrees, flattenTree, ih]

theorem copyTrees_flatten_aux :
    ∀ (n : Nat) (ts : List BTree) (h : Heap), sizeOf ts ≤ n →
      (copyTrees h ts).1 = (copyBindings h (flattenTrees ts)).1 ∧
      flattenTrees (copyTrees h ts).2 = (copyBindings h (flattenTrees ts)).2 := by
  intro n
  induction n using Nat.strong_induction_on with
  | _ n ih =>
    intro ts h hsz
    match ts with
    | [] => exact ⟨rfl, rfl⟩
    | .bind b :: ts' =>
      have hlt : sizeOf ts' < n := by
        have hs := hsz
        simp only [List.cons.sizeOf_spec] at hs
        omega
      obtain ⟨ih1, ih2⟩ :=
        ih (sizeOf ts') hlt ts' (copyBinding h b).1 (le_refl _)
      constructor
      · exact ih1
      · show (copyBinding h b).2 ::
            flattenTrees (copyTrees (copyBinding h b).1 ts').2 =
          (copyBinding h b).2 ::
            (copyBindings (copyBinding h b).1 (flattenTrees ts')).2
        rw [ih2]
    | .list xs :: ts' =>
      have hxs : sizeOf xs < n := by
        have hs := hsz
        simp only [List.cons.sizeOf_spec, BTree.list.sizeOf_spec] at hs
        omega
      have hts' : sizeOf ts' < n := by
        have hs := hsz
        simp only [List.cons.sizeOf_spec] at hs
        omega
      obtain ⟨a1, a2⟩ := ih (sizeOf xs) hxs xs h (le_refl _)
      obtain ⟨b1, b2⟩ := ih (sizeOf ts') hts' ts' (copyTrees h xs).1 (le_refl _)
      obtain ⟨c1, c2⟩ :=
        copyBindings_append (flattenTrees xs) (flattenTrees ts') h
      constructor
      · show (copyTrees (copyTrees h xs).1 ts').1 =
            (copyBindings h (flattenTrees xs ++ flattenTrees ts')).1
        rw [c1, ← a1, b1]
      · show flattenTrees (copyTrees h xs).2 ++
            flattenTrees (copyTrees (copyTrees h xs).1 ts').2 =
          (copyBindings h (flattenTrees xs ++ flattenTrees ts')).2
        rw [c2, ← a1, a2, b2]
    | .tuple xs :: ts' =>
      have hxs : sizeOf xs < n := by
        have hs := hsz
        simp only [List.cons.sizeOf_spec, BTree.tuple.sizeOf_spec] at hs
        omega
      have hts' : sizeOf ts' < n := by
        have hs := hsz
        simp only [List.cons.sizeOf_spec] at hs
        omega
      obtain ⟨a1, a2⟩ := ih (sizeOf xs) hxs xs h (le_refl _)
      obtain ⟨b1, b2⟩ := ih (sizeOf ts') hts' ts' (copyTrees h xs).1 (le_refl _)
      obtain ⟨c1, c2⟩ :=
        copyBindings_append (flattenTrees xs) (flattenTrees ts') h
      constructor
      · show (copyTrees (copyTrees h xs).1 ts').1 =
            (copyBindings h (flattenTrees xs ++ flattenTrees ts')).1
        rw [c1, ← a1, b1]
      · show flattenTrees (copyTrees h xs).2 ++
            flattenTrees (copyTrees (copyTrees h xs).1 ts').2 =
          (copyBindings h (flattenTrees xs ++ flattenTrees ts')).2
        rw [c2, ← a1, a2, b2]
    | .keymap bs :: ts' =>
      have hts' : sizeOf ts' < n := by
        have hs := hsz
        simp only [List.cons.sizeOf_spec] at hs
        omega
      obtain ⟨b1, b2⟩ :=
        ih (sizeOf ts') hts' ts' (copyBindings h bs).1 (le_refl _)
      obtain ⟨c1, c2⟩ := copyBindings_append bs (flattenTrees ts') h
      constructor
      · show (copyTrees (copyBindings h bs).1 ts').1 =
            (copyBindings h (bs ++ flattenTrees ts')).1
        rw [c1, b1]
      · show (copyBindings h bs).2 ++
            flattenTrees (copyTrees (copyBindings h bs).1 ts').2 =
          (copyBindings h (bs ++ flattenTrees ts')).2
        rw [c2, b2]

theorem copyTrees_flatten (ts : List BTree) (h : Heap) :
    (copyTrees h ts).1 = (copyBindings h (flattenTrees ts)).1 ∧
    flattenTrees (copyTrees h ts).2 = (copyBindings h (flattenTrees ts)).2 :=
  copyTrees_flatten_aux (sizeOf ts) ts h (le_refl _)

/-- The preprocessed batch has exactly one binding per flattened input
binding. -/
theorem preprocess_snd_length (h : Heap) (km : KeymapObj) (ts : List BTree) :
    (Keymap.preprocess h km ts).2.length = (flattenTrees ts).length := by
  show (applyCommonContext km.common_context
      (flattenTrees (copyTrees h ts).2)).length = (flattenTrees ts).length
  rw [applyCommonContext, List.length_map, (copyTrees_flatten ts h).2,
      copyBindings_length]

/-! ## Claims about the container pipeline -/

/-- C4: preprocessing a collection of bindings arbitrarily nested in lists,
tuples and sub-keymaps yields the same resulting binding list (compared by
value, with every condition reference dereferenced) as preprocessing the
corresponding already-flattened flat sequence of the same bindings in the
same left-to-right order. -/
theorem preprocess_nested_flat_equivalence (h : Heap) (km : KeymapObj)
    (ts : List BTree) :
    (Keymap.preprocess h km ts).2.map
        (derefBinding (Keymap.preprocess h km ts).1) =
      (Keymap.preprocess h km ((flattenTrees ts).map BTree.bind)).2.map
        (derefBinding
          (Keymap.preprocess h km ((flattenTrees ts).map BTree.bind)).1) := by
  have key : Keymap.preprocess h km ts =
      Keymap.preprocess h km ((flattenTrees ts).map BTree.bind) := by
    obtain ⟨a1, a2⟩ := copyTrees_flatten ts h
    obtain ⟨b1, b2⟩ := copyTrees_flatten ((flattenTrees ts).map BTree.bind) h
    rw [flattenTrees_map_bind] at b1 b2
    show (applyDefaultMatchAll km.default_match_all (copyTrees h ts).1
            (applyCommonContext km.common_context
              (flattenTrees (copyTrees h ts).2)),
          applyCommonContext km.common_context
            (flattenTrees (copyTrees h ts).2)) = _
    rw [a1, a2, ← b1, ← b2]
    rfl
  rw [key]

/-- C7: `Keymap.extend` appends exactly one stored binding per flattened
input binding — so the container's length is additive over any sequence of
`extend` calls and equals the total number of flattened bindings added,
counting from `Keymap.__init__` — but the call returns `None`, not the
container: the method body has no `return` statement, so `extend` cannot be
chained. -/
theorem extend_returns_none_and_is_additive (h : Heap) (km : KeymapObj)
    (ts : List BTree) (d : Option Bool) (cc : List Nat) :
    (Keymap.extend h km ts).2 = none ∧
    Keymap.len (Keymap.extend h km ts).1.2 =
      Keymap.len km + (flattenTrees ts).length ∧
    Keymap.len (Keymap.init h ts d cc).2 = (flattenTrees ts).length := by
  refine ⟨rfl, ?_, ?_⟩
  · show (km.bindings ++ (Keymap.preprocess h km ts).2).length = _
    rw [List.length_append, preprocess_snd_length]
    rfl
  · show (Keymap.preprocess h ⟨d, cc, []⟩ ts).2.length = _
    exact preprocess_snd_length h ⟨d, cc, []⟩ ts

/-- C1 counterexample: the conditions appended by the common-context
injection are *not* copies — they are the caller's own condition objects.
Constructing a keymap whose `common_context` is the condition object at heap
reference 0 stores that very reference in the binding's `context` (the
stored context is `[0]`), and the heap still holds exactly the one original
condition object: no copy of it was allocated. -/
theorem common_context_not_copied_counterexample :
    ((Keymap.init
        [⟨"selector", some "equal", some (.s "text.asciidoc"), none⟩]
        [BTree.bind ⟨["x"], none, .initList, []⟩] none [0]).2.bindings.map
      Binding.context) = [[0]] ∧
    (Keymap.init
        [⟨"selector", some "equal", some (.s "text.asciidoc"), none⟩]
        [BTree.bind ⟨["x"], none, .initList, []⟩] none [0]).1.length = 1 :=
  ⟨rfl, rfl⟩

/-- C1 (amended): for every batch of bindings passed to construction or
append, after preprocessing each stored binding's context consists of fresh
value copies of its original conditions (in their original order) followed
by the container's `commonConditions` *objects themselves* (the same
references, in their original order, shared by every binding and with the
caller) — not copies.  With the default match scope unset, no condition
value is changed: the copies' values equal the originals' and every
pre-existing condition object (including the caller's common conditions) is
left untouched. -/
theorem common_context_injection_amended (h : Heap) (bs : List Binding)
    (common : List Nat) (prev : List Binding)
    (hv : ∀ b ∈ bs, ∀ r ∈ b.context, r < h.length) :
    (Keymap.preprocess h ⟨none, common, prev⟩ (bs.map BTree.bind)).2.length =
      bs.length ∧
    (∃ copies : List Binding,
      (Keymap.preprocess h ⟨none, common, prev⟩ (bs.map BTree.bind)).2 =
        copies.map (fun b => { b with context := b.context ++ common }) ∧
      copies.map Binding.keys = bs.map Binding.keys ∧
      copies.map Binding.command = bs.map Binding.command ∧
      copies.map Binding.args = bs.map Binding.args ∧
      (∀ b' ∈ copies, ∀ n ∈ b'.context, h.length ≤ n) ∧
      copies.map (fun b' => b'.context.map
          (fun n => (Keymap.preprocess h ⟨none, common, prev⟩
            (bs.map BTree.bind)).1.getD n default)) =
        bs.map (fun b => b.context.map (fun r => h.getD r default))) ∧
    (∀ r, r < h.length →
      (Keymap.preprocess h ⟨none, common, prev⟩
        (bs.map BTree.bind)).1.getD r default = h.getD r default) ∧
    (Keymap.init h (bs.map BTree.bind) none common).2.bindings =
      (Keymap.preprocess h ⟨none, common, prev⟩ (bs.map BTree.bind)).2 ∧
    (Keymap.extend h ⟨none, common, prev⟩ (bs.map BTree.bind)).1.2.bindings =
      prev ++
        (Keymap.preprocess h ⟨none, common, prev⟩ (bs.map BTree.bind)).2 := by
  obtain ⟨a1, a2⟩ := copyTrees_flatten (bs.map BTree.bind) h
  rw [flattenTrees_map_bind] at a1 a2
  obtain ⟨⟨t0, ht0⟩, hk, hc, ha, hfresh, hmap⟩ := copyBindings_spec bs h hv
  have hlenheap : h.length ≤ (copyBindings h bs).1.length := by
    rw [ht0]
    simp only [List.length_append]
    omega
  have e2 : (Keymap.preprocess h ⟨none, common, prev⟩ (bs.map BTree.bind)).2 =
      applyCommonContext common (copyBindings h bs).2 := by
    show applyCommonContext common
        (flattenTrees (copyTrees h (bs.map BTree.bind)).2) = _
    rw [a2]
  have e1 : (Keymap.preprocess h ⟨none, common, prev⟩ (bs.map BTree.bind)).1 =
      applyDefaultMatchAll none (copyBindings h bs).1
        (applyCommonContext common (copyBindings h bs).2) := by
    show applyDefaultMatchAll none (copyTrees h (bs.map BTree.bind)).1
        (applyCommonContext common
          (flattenTrees (copyTrees h (bs.map BTree.bind)).2)) = _
    rw [a1, a2]
  have hpres : ∀ r, r < (copyBindings h bs).1.length →
      (Keymap.preprocess h ⟨none, common, prev⟩
        (bs.map BTree.bind)).1.getD r default =
        (copyBindings h bs).1.getD r default := by
    intro r hr
    rw [e1]
    exact applyDefaultMatchAll_none_getD (copyBindings h bs).1 _ r hr
  refine ⟨?_, ⟨(copyBindings h bs).2, ?_, hk, hc, ha, ?_, ?_⟩, ?_, rfl, rfl⟩
  · rw [e2, applyCommonContext, List.length_map, copyBindings_length]
  · rw [e2]; rfl
  · intro b' hb' n hn
    exact (hfresh b' hb' n hn).1
  · rw [← hmap]
    exact List.map_congr_left
      (fun b' hb' =>
        List.map_congr_left
          (fun n hn => hpres n (hfresh b' hb' n hn).2))
  · intro r hr
    rw [hpres r (lt_of_lt_of_le hr hlenheap), ht0]
    exact List.getD_append h t0 default r hr

/-- C1 witness: one binding with one own condition (reference 1), one common
condition (reference 0): the preprocessed batch has one binding and the
caller's condition objects are unchanged. -/
theorem common_context_injection_amended_witness :
    (Keymap.preprocess
        [⟨"selector", some "equal", some (.s "text.asciidoc"), none⟩,
         ⟨"foo", none, none, none⟩]
        ⟨none, [0], []⟩
        ([(⟨["x"], none, .initList, [1]⟩ : Binding)].map BTree.bind)).2.length
      = 1 ∧
    (Keymap.preprocess
        [⟨"selector", some "equal", some (.s "text.asciidoc"), none⟩,
         ⟨"foo", none, none, none⟩]
        ⟨none, [0], []⟩
        ([(⟨["x"], none, .initList, [1]⟩ : Binding)].map
          BTree.bind)).1.getD 0 default =
      ([⟨"selector", some "equal", some (.s "text.asciidoc"), none⟩,
        ⟨"foo", none, none, none⟩] : Heap).getD 0 default :=
  ⟨(common_context_injection_amended
      [⟨"selector", some "equal", some (.s "text.asciidoc"), none⟩,
       ⟨"foo", none, none, none⟩]
      [⟨["x"], none, .initList, [1]⟩] [0] [] (by decide)).1,
   (common_context_injection_amended
      [⟨"selector", some "equal", some (.s "text.asciidoc"), none⟩,
       ⟨"foo", none, none, none⟩]
      [⟨["x"], none, .initList, [1]⟩] [0] [] (by decide)).2.2.1 0
     (by decide)⟩
